import Mathlib

/-!
Verification of the sqlitevis visualizer core (src/web/js/visualizer.js,
src/web/js/events.js, and the application controller) against its
natural-language specification.  The JavaScript classes are shallowly
embedded: the mutable BTreeVisualizer / EventManager objects become
immutable state records, and each method becomes a state-transforming
function.  Rendering calls (draw, DOM updates) are omitted as they do not
touch the model state; layout positions, which the source writes into the
node objects, are instead returned by the layout function.
-/

/-- Cell record created by BTreeVisualizer.addCell: the literal
    cell = \x7b idx, keyLen, key \x7d with key derived as the string Key
    followed by the index. -/
structure Cell where
  idx : Nat
  keyLen : Nat
  key : String
deriving DecidableEq, Repr

/-- Node record created by BTreeVisualizer.addPage: page number, type
    (0 interior, 1 leaf), cells, parent (set to null at creation and never
    written afterwards), children page references, expanded flag.  The
    source also stores coordinates x, y mutated only by layout; the
    embedding returns positions from layoutRun instead of storing them. -/
structure Node where
  page : Nat
  type : Nat
  cells : List Cell
  parent : Option Nat
  children : List Nat
  expanded : Bool
deriving DecidableEq, Repr

/-- The visualizer's nodes Map (page number to node data), embedded as an
    association list in insertion order, matching the iteration order of a
    JavaScript Map. -/
abbrev NodeMap := List (Nat × Node)

/-- Map.get: first association for the key. -/
def getNode : NodeMap → Nat → Option Node
  | [], _ => none
  | (q, nd) :: rest, p => if q = p then some nd else getNode rest p

/-- Map.set: replaces the association in place (JavaScript Map keeps the
    original insertion position on re-set) or appends a fresh one. -/
def setNode : NodeMap → Nat → Node → NodeMap
  | [], p, nd => [(p, nd)]
  | (q, old) :: rest, p, nd =>
      if q = p then (q, nd) :: rest else (q, old) :: setNode rest p nd

/-- Map.delete: removes the association for the key. -/
def delNode : NodeMap → Nat → NodeMap
  | [], _ => []
  | (q, nd) :: rest, p =>
      if q = p then delNode rest p else (q, nd) :: delNode rest p

/-- The page numbers of the live nodes (what the spec calls allNodes). -/
def allNodes (m : NodeMap) : List Nat := m.map Prod.fst

/-- A scheduled highlight: animateInsertion / animateDeletion /
    animateSplit add the page to highlightedNodes and register a timeout
    removing it after durationMs divided by the animation speed captured
    at creation time.  The embedding records each creation with its
    schedule; membership of the source's highlight set over time is the
    activity interval modelled by highlightActiveAt. -/
structure Highlight where
  page : Nat
  startTime : ℚ
  durationMs : ℚ
  speed : ℚ
deriving DecidableEq, Repr

/-- A highlight is active from its creation until its removal timer fires
    at startTime + durationMs / speed. -/
def highlightActiveAt (hl : Highlight) (now : ℚ) : Prop :=
  hl.startTime ≤ now ∧ now - hl.startTime < hl.durationMs / hl.speed

/-- A highlight is expired once now - startTime reaches
    durationMs / speed, the moment its removal timer fires. -/
def highlightExpiredAt (hl : Highlight) (now : ℚ) : Prop :=
  hl.durationMs / hl.speed ≤ now - hl.startTime

/-- BTreeVisualizer state: nodes map, root page (always 1), page size,
    transition toggle, animation speed, and the highlight schedule. -/
structure VisState where
  nodes : NodeMap
  rootPage : Nat
  pageSize : Nat
  showTransitions : Bool
  animationSpeed : ℚ
  highlights : List Highlight

/-- Constructor state of BTreeVisualizer. -/
def initVis : VisState :=
  { nodes := [], rootPage := 1, pageSize := 4096, showTransitions := true,
    animationSpeed := 1, highlights := [] }

/-- BTreeVisualizer.addPage: stores a fresh node with empty cells and
    children, no parent, expanded true.  (The trailing layout and draw
    calls are rendering-only.) -/
def addPage (s : VisState) (pageNum pageType : Nat) : VisState :=
  let nd : Node :=
    { page := pageNum, type := pageType, cells := [], parent := none,
      children := [], expanded := true }
  { s with nodes := setNode s.nodes pageNum nd }

/-- The derived display key of a cell, the string Key followed by the
    index, as in addCell. -/
def mkCell (cellIdx keyLen : Nat) : Cell :=
  { idx := cellIdx, keyLen := keyLen, key := "Key" ++ toString cellIdx }

/-- Array.prototype.splice(i, 0, c): insert at position i (clamped to the
    length, as splice clamps an over-long index). -/
def spliceInsert (l : List Cell) (i : Nat) (c : Cell) : List Cell :=
  l.take i ++ c :: l.drop i

/-- BTreeVisualizer.addCell at clock time now: no-op when the page is
    unknown; otherwise splices the new cell in at cellIdx and, when
    transitions are shown, schedules a 500ms highlight at the current
    animation speed (animateInsertion). -/
def addCell (s : VisState) (pageNum cellIdx keyLen : Nat) (now : ℚ) : VisState :=
  match getNode s.nodes pageNum with
  | none => s
  | some nd =>
      let nd' := { nd with cells := spliceInsert nd.cells cellIdx (mkCell cellIdx keyLen) }
      let s' := { s with nodes := setNode s.nodes pageNum nd' }
      if s.showTransitions then
        { s' with highlights := s'.highlights ++ [⟨pageNum, now, 500, s.animationSpeed⟩] }
      else s'

/-- BTreeVisualizer.deleteCell at clock time now: no-op when the page is
    unknown; otherwise schedules a 500ms highlight (animateDeletion) and
    splices out the cell at cellIdx.  splice(i, 1) is List.eraseIdx: the
    surviving cells keep their recorded idx attributes unchanged. -/
def deleteCell (s : VisState) (pageNum cellIdx : Nat) (now : ℚ) : VisState :=
  match getNode s.nodes pageNum with
  | none => s
  | some nd =>
      let s₁ := if s.showTransitions then
          { s with highlights := s.highlights ++ [⟨pageNum, now, 500, s.animationSpeed⟩] }
        else s
      { s₁ with nodes := setNode s₁.nodes pageNum ({ nd with cells := nd.cells.eraseIdx cellIdx }) }

/-- BTreeVisualizer.splitPage at clock time now: no-op when the original
    page is unknown.  Otherwise it calls addPage(newPage, original.type)
    unconditionally, creating a fresh node that replaces any node already
    stored under newPage; splices off the original's cells from splitCell
    (mutating the original node object) and assigns them to the new node;
    then, when transitions are shown, schedules two 1000ms highlights
    (animateSplit).  When originalPage equals newPage the source mutates a
    detached object, so the write-back of the truncated cells is guarded
    by the page inequality to mirror the aliasing. -/
def splitPage (s : VisState) (originalPage newPage splitCell : Nat) (now : ℚ) : VisState :=
  match getNode s.nodes originalPage with
  | none => s
  | some original =>
      let s₁ := addPage s newPage original.type
      let movedCells := original.cells.drop splitCell
      let originalTrunc := { original with cells := original.cells.take splitCell }
      let s₂ := if originalPage = newPage then s₁ else
        { s₁ with nodes := setNode s₁.nodes originalPage originalTrunc }
      let s₃ := match getNode s₂.nodes newPage with
        | some newNd =>
            let newNd' := { newNd with cells := movedCells }
            { s₂ with nodes := setNode s₂.nodes newPage newNd' }
        | none => s₂
      let newHls : List Highlight :=
        [⟨originalPage, now, 1000, s.animationSpeed⟩, ⟨newPage, now, 1000, s.animationSpeed⟩]
      if s.showTransitions then { s₃ with highlights := s₃.highlights ++ newHls }
      else s₃

/-- The PAGE_FREE handler in SQLiteVisApp.connectEvents: deletes the node
    from the visualizer's map (then re-lays-out and redraws). -/
def freePage (s : VisState) (p : Nat) : VisState :=
  { s with nodes := delNode s.nodes p }

/-- BTreeVisualizer.toggleNodeExpansion applied to the node stored under
    page p: flips its expanded flag (then re-lays-out and redraws). -/
def toggleNodeExpansion (s : VisState) (p : Nat) : VisState :=
  match getNode s.nodes p with
  | none => s
  | some nd => { s with nodes := setNode s.nodes p ({ nd with expanded := !nd.expanded }) }

/-- BTreeVisualizer.buildLevels resolves each child page reference through
    the nodes map and enqueues only the children that resolve. -/
def resolveChildren (m : NodeMap) (nd : Node) : List Node :=
  nd.children.filterMap (fun c => getNode m c)

/-- The JavaScript statement pair: if levels at position l is missing, an
    empty array is created, then the node is pushed onto it.  In a
    breadth-first run l never exceeds the length, so the padding branch is
    unreachable there. -/
def placeAt : List (List Node) → Nat → Node → List (List Node)
  | [], 0, nd => [[nd]]
  | [], l + 1, nd => [] :: placeAt [] l nd
  | lv :: rest, 0, nd => (lv ++ [nd]) :: rest
  | lv :: rest, l + 1, nd => lv :: placeAt rest l nd

/-- BTreeVisualizer.buildLevels: breadth-first traversal with a FIFO queue
    of (node, level) entries and no visited set; each dequeued node is
    pushed onto its level and every resolvable child is enqueued one level
    down.  The source's while loop is embedded with a fuel argument: none
    means the loop was still running when the fuel ran out (the source
    would still be looping). -/
def buildLevels (m : NodeMap) : Nat → List (Node × Nat) → List (List Node) → Option (List (List Node))
  | _, [], levels => some levels
  | 0, _ :: _, _ => none
  | fuel + 1, (nd, l) :: rest, levels =>
      buildLevels m fuel (rest ++ (resolveChildren m nd).map (fun c => (c, l + 1))) (placeAt levels l nd)

/-- Layout constants of the BTreeVisualizer constructor. -/
def nodeWidth : ℚ := 120

/-- Layout constant levelHeight. -/
def levelHeight : ℚ := 120

/-- Layout constant horizontalSpacing. -/
def horizontalSpacing : ℚ := 40

/-- The vertical start of BTreeVisualizer.layout (currentY = 50). -/
def topMargin : ℚ := 50

/-- One level of BTreeVisualizer.layout: nodes are placed left to right
    starting at x, advancing by nodeWidth + horizontalSpacing. -/
def rowPositions : List Node → ℚ → ℚ → List (Nat × ℚ × ℚ)
  | [], _, _ => []
  | nd :: rest, x, y => (nd.page, x, y) :: rowPositions rest (x + (nodeWidth + horizontalSpacing)) y

/-- BTreeVisualizer.layout over the computed levels: each level spans
    count * (nodeWidth + horizontalSpacing) and starts at
    (canvasWidth - span) / 2; successive levels are levelHeight apart. -/
def layoutPositions (w : ℚ) : List (List Node) → ℚ → List (Nat × ℚ × ℚ)
  | [], _ => []
  | lv :: rest, y =>
      rowPositions lv ((w - (lv.length : ℚ) * (nodeWidth + horizontalSpacing)) / 2) y ++
        layoutPositions w rest (y + levelHeight)

/-- BTreeVisualizer.layout: returns without positioning when the store is
    empty or the root page is absent; otherwise positions the levels of
    the breadth-first traversal.  The fuel is buildLevels's. -/
def layoutRun (s : VisState) (w : ℚ) (fuel : Nat) : Option (List (Nat × ℚ × ℚ)) :=
  if s.nodes = [] then some [] else
  match getNode s.nodes s.rootPage with
  | none => some []
  | some root => (buildLevels s.nodes fuel [(root, 0)] []).map (fun levels => layoutPositions w levels topMargin)

/-- BTreeVisualizer.drawConnections for one node: the child pages a line
    is drawn to.  Each children entry is looked up in the nodes map and an
    unresolvable (dangling) reference is skipped without error — no line
    is drawn to it. -/
def drawConnections (m : NodeMap) (nd : Node) : List Nat :=
  nd.children.filter (fun c => (getNode m c).isSome)

/-- The children of page p that resolve to live nodes, in order: the pages
    buildLevels enqueues when it dequeues p's node. -/
def childrenOf (m : NodeMap) (p : Nat) : List Nat :=
  match getNode m p with
  | some nd => nd.children.filter (fun c => (getNode m c).isSome)
  | none => []

/-- The pages reachable from root by walks of length exactly k, listed
    once per walk in breadth-first discovery order. -/
def reachList (m : NodeMap) (root : Nat) : Nat → List Nat
  | 0 => [root]
  | k + 1 => (reachList m root k).flatMap (childrenOf m)

/-- The per-level page lists of a buildLevels result. -/
def pagesOf (levels : List (List Node)) : List (List Nat) :=
  levels.map (fun lv => lv.map Node.page)

/-- List lookup with default, used to state the level characterization. -/
def nthD {α : Type} : List α → Nat → α → α
  | [], _, d => d
  | x :: _, 0, _ => x
  | _ :: xs, n + 1, d => nthD xs n d

/-- The prefix of per-level reach lists [reachList 0, ..., reachList (l-1)]. -/
def reachLevels (m : NodeMap) (root : Nat) : Nat → List (List Nat)
  | 0 => []
  | l + 1 => reachLevels m root l ++ [reachList m root l]

/-- Every stored node records its own map key as its page field; addPage
    establishes this and no operation breaks it. -/
def KeysMatch (m : NodeMap) : Prop := ∀ e ∈ m, e.2.page = e.1

instance (m : NodeMap) : Decidable (KeysMatch m) := by
  unfold KeysMatch; infer_instance

/-- Acyclicity of the children-reference graph reachable from root,
    stated through the standard finite-graph equivalent: every walk from
    the root is shorter than the number of live nodes.  (A reachable cycle
    yields arbitrarily long walks; conversely walks in an acyclic graph
    never repeat a node, so they are shorter than the node count.)  The
    quantifier over lengths is bounded to keep the predicate decidable;
    acyclicFrom_reach_lt recovers the unbounded bound. -/
def AcyclicFrom (m : NodeMap) (root : Nat) : Prop :=
  ∀ k, k ≤ (allNodes m).length → ∀ q ∈ reachList m root k, k < (allNodes m).length

instance (m : NodeMap) (root : Nat) : Decidable (AcyclicFrom m root) := by
  unfold AcyclicFrom; infer_instance

/-- The largest children-list length over the stored nodes. -/
def maxChildren (m : NodeMap) : Nat :=
  m.foldr (fun e acc => max e.2.children.length acc) 0

/-- Weight of a queue entry with remaining depth budget b, for the
    termination measure of buildLevels on acyclic stores. -/
def weightW (c : Nat) : Nat → Nat
  | 0 => 1
  | b + 1 => 1 + c * weightW c b

/-- Termination measure: total weight of the queue, the budget of an
    entry at level l being n - l. -/
def qMeasure (c n : Nat) (queue : List (Node × Nat)) : Nat :=
  (queue.map (fun e => weightW c (n - e.2))).sum

/-- Structured data produced by the host's JSON.parse for the event
    payloads this program exchanges: flat objects of numeric and string
    fields. -/
inductive Json where
  | num (n : Int)
  | str (s : String)
  | obj (fields : List (String × Json))

/-- Opening brace character. -/
def lbraceC : Char := Char.ofNat 123

/-- Closing brace character. -/
def rbraceC : Char := Char.ofNat 125

/-- Double quote character. -/
def quoteC : Char := Char.ofNat 34

/-- Consume characters up to the closing quote of a JSON string literal. -/
def takeStringChars : List Char → Option (List Char × List Char)
  | [] => none
  | c :: rest =>
      if c = quoteC then some ([], rest)
      else (takeStringChars rest).map (fun pr => (c :: pr.1, pr.2))

/-- Decimal digits to a natural number. -/
def digitsToNat (ds : List Char) : Nat :=
  ds.foldl (fun acc c => acc * 10 + (c.toNat - 48)) 0

/-- Parse a JSON integer (optional minus sign, then digits). -/
def parseNumber (cs : List Char) : Option (Int × List Char) :=
  match cs with
  | [] => none
  | c :: rest =>
      if c = '-' then
        let pr := List.span Char.isDigit rest
        if pr.1 = [] then none else some (-(digitsToNat pr.1 : Int), pr.2)
      else
        let pr := List.span Char.isDigit cs
        if pr.1 = [] then none else some ((digitsToNat pr.1 : Int), pr.2)

/-- Parse a JSON value of the payload subset: a string or an integer. -/
def parseValue (cs : List Char) : Option (Json × List Char) :=
  match cs with
  | [] => none
  | c :: rest =>
      if c = quoteC then
        (takeStringChars rest).map (fun pr => (Json.str (String.mk pr.1), pr.2))
      else (parseNumber cs).map (fun pr => (Json.num pr.1, pr.2))

/-- Parse the key-value pairs of a JSON object body up to and including
    the closing brace.  The fuel is the input length; each pair consumes
    at least one character. -/
def parsePairs : Nat → List Char → Option (List (String × Json) × List Char)
  | 0, _ => none
  | fuel + 1, cs =>
      match cs with
      | [] => none
      | c :: rest =>
          if c = quoteC then
            match takeStringChars rest with
            | none => none
            | some (kcs, r1) =>
                match r1 with
                | [] => none
                | c2 :: r2 =>
                    if c2 = ':' then
                      match parseValue r2 with
                      | none => none
                      | some (v, r3) =>
                          match r3 with
                          | [] => none
                          | c3 :: r4 =>
                              if c3 = ',' then
                                (parsePairs fuel r4).map
                                  (fun pr => ((String.mk kcs, v) :: pr.1, pr.2))
                              else if c3 = rbraceC then some ([(String.mk kcs, v)], r4)
                              else none
                    else none
          else none

/-- Modelled from the spec: the host primitive JSON.parse, which the spec
    describes as validating that the payload is parseable structured
    data.  It is modelled on the flat object payloads this program
    exchanges (string keys, integer or string values, no whitespace) and
    returns none exactly where JSON.parse would throw a SyntaxError. -/
def jsonParse (s : String) : Option Json :=
  match s.data with
  | [] => none
  | c :: rest =>
      if c = lbraceC then
        match rest with
        | [] => none
        | c2 :: r2 =>
            if c2 = rbraceC then (if r2 = [] then some (Json.obj []) else none)
            else
              match parsePairs rest.length rest with
              | some (fs, r) => if r = [] then some (Json.obj fs) else none
              | none => none
      else none

/-- One entry of the EventManager's event log. -/
structure VisEvent where
  id : Nat
  type : Nat
  typeName : String
  category : String
  data : Json
  timestamp : ℚ

/-- EventManager state: the event log and the running event counter.
    (autoScroll and the listener table, which the application fills with
    the fixed handlers embedded in connectEvents below, carry no model
    state of their own.) -/
structure EMState where
  events : List VisEvent
  eventCount : Nat

/-- Association lookup in the literal tables below. -/
def lookupTable : List (Nat × String) → Nat → Option String
  | [], _ => none
  | (k, v) :: rest, c => if k = c then some v else lookupTable rest c

/-- The eventTypeNames table of the EventManager constructor. -/
def eventTypeNames : List (Nat × String) :=
  [(0, "BTREE_OPEN"), (1, "BTREE_CLOSE"), (2, "BTREE_INSERT"), (3, "BTREE_DELETE"),
   (4, "BTREE_SPLIT"), (5, "BTREE_BALANCE"), (6, "PAGE_ALLOCATE"), (7, "PAGE_FREE"),
   (8, "PARSE_START"), (9, "PARSE_TOKEN"), (10, "PARSE_COMPLETE"), (11, "VDBE_START"),
   (12, "VDBE_OPCODE"), (13, "VDBE_COMPLETE")]

/-- The eventCategories table of the EventManager constructor. -/
def eventCategories : List (Nat × String) :=
  [(0, "btree"), (1, "btree"), (2, "btree"), (3, "btree"), (4, "btree"), (5, "btree"),
   (6, "btree"), (7, "btree"), (8, "parse"), (9, "parse"), (10, "parse"),
   (11, "vdbe"), (12, "vdbe"), (13, "vdbe")]

/-- eventTypeNames[eventType] falling back to UNKNOWN. -/
def typeNameFor (c : Nat) : String := (lookupTable eventTypeNames c).getD "UNKNOWN"

/-- eventCategories[eventType] falling back to other. -/
def categoryFor (c : Nat) : String := (lookupTable eventCategories c).getD "other"

/-- The event record EventManager.handleEvent constructs, with the id the
    counter value before its post-increment. -/
def mkEvent (em : EMState) (eventType : Nat) (d : Json) (now : ℚ) : VisEvent :=
  { id := em.eventCount, type := eventType, typeName := typeNameFor eventType,
    category := categoryFor eventType, data := d, timestamp := now }

/-- EventManager.handleEvent: the object literal increments eventCount,
    then evaluates JSON.parse(dataJson).  When parsing fails the exception
    propagates out of handleEvent (there is no catch): the error value
    carries the state at the throw, with the counter already incremented
    and the log untouched.  On success the event is appended and returned
    for listener notification. -/
def handleEvent (em : EMState) (eventType : Nat) (dataJson : String) (now : ℚ) :
    Except EMState (EMState × VisEvent) :=
  match jsonParse dataJson with
  | none => Except.error { em with eventCount := em.eventCount + 1 }
  | some d =>
      let ev := mkEvent em eventType d now
      Except.ok ({ events := em.events ++ [ev], eventCount := em.eventCount + 1 }, ev)

/-- Numeric field of a payload object, as the listeners read e.data.page
    and friends.  Negative numbers never occur in the engine's payloads
    and are treated as absent. -/
def lookupJson : List (String × Json) → String → Option Json
  | [], _ => none
  | (k, v) :: rest, key => if k = key then some v else lookupJson rest key

/-- Numeric payload field lookup. -/
def numField (d : Json) (key : String) : Option Nat :=
  match d with
  | Json.obj fields =>
      match lookupJson fields key with
      | some (Json.num n) => if n < 0 then none else some n.toNat
      | _ => none
  | _ => none

/-- Payload field name page. -/
def pageKey : String := "page"

/-- Payload field name type. -/
def typeKey : String := "type"

/-- Payload field name cell. -/
def cellKey : String := "cell"

/-- Payload field name keyLen. -/
def keyLenKey : String := "keyLen"

/-- Payload field name pageSize. -/
def pageSizeKey : String := "pageSize"

/-- Payload field name originalPage. -/
def originalPageKey : String := "originalPage"

/-- Payload field name newPage. -/
def newPageKey : String := "newPage"

/-- Payload field name splitCell. -/
def splitCellKey : String := "splitCell"

/-- The listeners SQLiteVisApp.connectEvents registers with the event
    manager, applied to a delivered event: codes 0 (BTREE_OPEN), 6
    (PAGE_ALLOCATE), 7 (PAGE_FREE), 2 (BTREE_INSERT), 3 (BTREE_DELETE)
    and 4 (BTREE_SPLIT) drive the visualizer; every other code has no
    listener and leaves the visualizer untouched.  A payload missing a
    numeric field is embedded as a no-op: the corresponding source paths
    either look up an absent key (returning early) or would store a node
    under the unusable key undefined, unobservable to any numeric page
    query. -/
def connectEvents (vis : VisState) (ev : VisEvent) (now : ℚ) : VisState :=
  if ev.type = 0 then
    match numField ev.data pageSizeKey with
    | some ps => { vis with pageSize := ps }
    | none => vis
  else if ev.type = 6 then
    match numField ev.data pageKey, numField ev.data typeKey with
    | some p, some t => addPage vis p t
    | _, _ => vis
  else if ev.type = 7 then
    match numField ev.data pageKey with
    | some p => freePage vis p
    | none => vis
  else if ev.type = 2 then
    match numField ev.data pageKey, numField ev.data cellKey, numField ev.data keyLenKey with
    | some p, some c, some k => addCell vis p c k now
    | _, _, _ => vis
  else if ev.type = 3 then
    match numField ev.data pageKey, numField ev.data cellKey with
    | some p, some c => deleteCell vis p c now
    | _, _ => vis
  else if ev.type = 4 then
    match numField ev.data originalPageKey, numField ev.data newPageKey,
        numField ev.data splitCellKey with
    | some op, some np, some sc => splitPage vis op np sc now
    | _, _, _ => vis
  else vis

/-- Combined application state: the global eventManager and the
    visualizer it is connected to. -/
structure AppState where
  em : EMState
  vis : VisState

/-- The registered callback window.sqliteVisEventHandler at clock time
    now: handleEvent, whose success notifies the connected listeners.  A
    parse failure propagates as an exception, carrying the state at the
    throw. -/
def onEvent (app : AppState) (code : Nat) (payload : String) (now : ℚ) :
    Except AppState AppState :=
  match handleEvent app.em code payload now with
  | Except.error em' => Except.error { app with em := em' }
  | Except.ok (em', ev) => Except.ok { em := em', vis := connectEvents app.vis ev now }

/-- The end-to-end mutation sequence of the spec's testable properties:
    Allocate(1, leaf), Insert(1,0,16), Insert(1,1,16), Delete(1,0),
    applied to a fresh visualizer (clock times 0, 1, 2, 3). -/
def c1State : VisState :=
  deleteCell (addCell (addCell (addPage initVis 1 1) 1 0 16 1) 1 1 16 2) 1 0 3

/-- A store with a leaf node 1 holding five cells recorded 0..4 and an
    interior node 2 holding one cell, built with the public operations. -/
def c2Pre : VisState :=
  addCell (addPage (addCell (addCell (addCell (addCell (addCell
    (addPage initVis 1 1) 1 0 16 0) 1 1 16 0) 1 2 16 0) 1 3 16 0) 1 4 16 0) 2 0) 2 0 7 0

/-- c2Pre after Split(1, 2, 2). -/
def c2Post : VisState := splitPage c2Pre 1 2 2 9

/-- A node literal with the given page and children, used for hand-built
    stores whose children lists are populated (no public operation of the
    source ever fills children, so multi-node traversals are stated over
    directly constructed stores). -/
def mkTreeNode (p : Nat) (cs : List Nat) : Node :=
  { page := p, type := 1, cells := [], parent := none, children := cs, expanded := true }

/-- Diamond store: 1 points to 2 and 3, both of which point to 4. -/
def diamondMap : NodeMap :=
  [(1, mkTreeNode 1 [2, 3]), (2, mkTreeNode 2 [4]), (3, mkTreeNode 3 [4]), (4, mkTreeNode 4 [])]

/-- Self-loop store: node 1 lists itself as a child. -/
def cycMap : NodeMap := [(1, mkTreeNode 1 [1])]

/-- Small tree store: root 1 with children 2 and 3. -/
def treeMap : NodeMap :=
  [(1, mkTreeNode 1 [2, 3]), (2, mkTreeNode 2 []), (3, mkTreeNode 3 [])]

/-- Visualizer state over treeMap. -/
def treeVis : VisState := { initVis with nodes := treeMap }

/-- Two-node chain store: root 1 with the single child 2. -/
def chainMap : NodeMap := [(1, mkTreeNode 1 [2]), (2, mkTreeNode 2 [])]

/-- Visualizer state over chainMap. -/
def chainVis : VisState := { initVis with nodes := chainMap }

/-- chainVis after clicking the root: toggleNodeExpansion collapses it. -/
def chainCollapsed : VisState := toggleNodeExpansion chainVis 1

/-- Initial application state: fresh event manager and visualizer. -/
def app0 : AppState :=
  { em := { events := [], eventCount := 0 }, vis := initVis }

/-- A payload JSON.parse rejects. -/
def notJson : String := "not json"

/-- The empty-object payload of the spec's unknown-code property. -/
def emptyObjPayload : String := "\x7b\x7d"

/-- Invariant of the buildLevels loop relating the queue and the levels
    built so far to the per-level reach lists: the queue holds the
    unprocessed tail q₁ of level l followed by the already-discovered
    prefix q₂ of level l+1; the levels hold the full lists for levels
    below l and the processed prefix a of level l. -/
def BfsInv (m : NodeMap) (root : Nat) (l : Nat) (a : List Nat) (q₁ q₂ : List Node)
    (queue : List (Node × Nat)) (levels : List (List Node)) : Prop :=
  queue = q₁.map (fun nd => (nd, l)) ++ q₂.map (fun nd => (nd, l + 1)) ∧
  pagesOf levels = reachLevels m root l ++ (if a = [] then [] else [a]) ∧
  reachList m root l = a ++ q₁.map Node.page ∧
  reachList m root (l + 1) = q₂.map Node.page ++ (q₁.map Node.page).flatMap (childrenOf m) ∧
  (∀ nd ∈ q₁, getNode m nd.page = some nd) ∧
  (∀ nd ∈ q₂, getNode m nd.page = some nd)

/-- Invariant of the termination argument: every queue entry is a stored
    node together with a witness level at which its page is reachable. -/
def QInv (m : NodeMap) (root : Nat) (queue : List (Node × Nat)) : Prop :=
  ∀ e ∈ queue, getNode m e.1.page = some e.1 ∧ e.1.page ∈ reachList m root e.2

theorem getNode_setNode_self (m : NodeMap) (p : Nat) (nd : Node) :
    getNode (setNode m p nd) p = some nd := by
  induction m with
  | nil => simp [setNode, getNode]
  | cons e rest ih =>
      obtain ⟨q, old⟩ := e
      by_cases h : q = p
      · simp [setNode, getNode, h]
      · simp [setNode, getNode, h, ih]

theorem getNode_setNode_ne (m : NodeMap) (p q : Nat) (nd : Node) (h : q ≠ p) :
    getNode (setNode m p nd) q = getNode m q := by
  induction m with
  | nil => simp [setNode, getNode, Ne.symm h]
  | cons e rest ih =>
      obtain ⟨r, old⟩ := e
      by_cases hr : r = p
      · subst hr
        simp [setNode, getNode, Ne.symm h]
      · simp [setNode, getNode, hr, ih]

theorem getNode_delNode_self (m : NodeMap) (p : Nat) :
    getNode (delNode m p) p = none := by
  induction m with
  | nil => simp [delNode, getNode]
  | cons e rest ih =>
      obtain ⟨q, nd⟩ := e
      by_cases h : q = p <;> simp [delNode, getNode, h, ih]

theorem getNode_delNode_ne (m : NodeMap) (p q : Nat) (h : q ≠ p) :
    getNode (delNode m p) q = getNode m q := by
  induction m with
  | nil => simp [delNode, getNode]
  | cons e rest ih =>
      obtain ⟨r, nd⟩ := e
      by_cases hr : r = p
      · subst hr
        simp [delNode, getNode, Ne.symm h, ih]
      · simp [delNode, getNode, hr, ih]

theorem not_mem_allNodes_delNode (m : NodeMap) (p : Nat) :
    p ∉ allNodes (delNode m p) := by
  induction m with
  | nil => simp [delNode, allNodes]
  | cons e rest ih =>
      obtain ⟨q, nd⟩ := e
      by_cases h : q = p
      · simpa [delNode, allNodes, h] using ih
      · simp only [delNode, if_neg h, allNodes, List.map_cons, List.mem_cons]
        rintro (hh | hh)
        · exact h hh.symm
        · exact ih hh

theorem allNodes_setNode_of_mem (m : NodeMap) (p : Nat) (nd₀ nd : Node)
    (h : getNode m p = some nd₀) : allNodes (setNode m p nd) = allNodes m := by
  induction m with
  | nil => simp [getNode] at h
  | cons e rest ih =>
      obtain ⟨q, old⟩ := e
      by_cases hq : q = p
      · simp [setNode, allNodes, hq]
      · simp only [getNode, if_neg hq] at h
        simpa [setNode, allNodes, hq] using ih h

/-- Claim C1 counterexample: applying Allocate(1, leaf), Insert(1,0,16),
    Insert(1,1,16), Delete(1,0) leaves node 1 with one surviving cell
    whose recorded index attribute is 1, not the contiguous 0 the claim
    requires (indices exactly 0..k-1 with k = 1). -/
theorem c1_counterexample :
    (getNode c1State.nodes 1).map (fun nd => nd.cells.map Cell.idx) = some [1] ∧
    (getNode c1State.nodes 1).map (fun nd => nd.cells.map Cell.idx) ≠ some [0] := by
  constructor
  · rfl
  · intro h
    rw [show (getNode c1State.nodes 1).map (fun nd => nd.cells.map Cell.idx) = some [1] from rfl] at h
    simp at h

/-- Claim C1 amended: after a Delete on a node present in the store, the
    surviving cells are exactly the previous sequence with the cell at
    position cellIdx removed — positions stay contiguous from 0 by
    construction, every surviving cell keeps its recorded idx and keyLen
    attributes verbatim (they are not rewritten), and every other node is
    untouched. -/
theorem c1_delete_preserves_cells (s : VisState) (p i : Nat) (now : ℚ) (nd : Node)
    (h : getNode s.nodes p = some nd) :
    getNode (deleteCell s p i now).nodes p = some ({ nd with cells := nd.cells.eraseIdx i }) ∧
    (∀ q, q ≠ p → getNode (deleteCell s p i now).nodes q = getNode s.nodes q) := by
  constructor
  · cases hb : s.showTransitions <;> simp [deleteCell, h, hb, getNode_setNode_self]
  · intro q hq
    cases hb : s.showTransitions <;>
      simp [deleteCell, h, hb, getNode_setNode_ne _ _ _ _ hq]

/-- Claim C1 witness: the amended statement evaluated on the spec's
    end-to-end sequence, deleting position 0 of the two-cell node 1. -/
theorem c1_witness :
    getNode (deleteCell (addCell (addCell (addPage initVis 1 1) 1 0 16 1) 1 1 16 2) 1 0 3).nodes 1 =
      some ({ page := 1, type := 1, cells := [mkCell 1 16], parent := none,
              children := [], expanded := true }) :=
  (c1_delete_preserves_cells (addCell (addCell (addPage initVis 1 1) 1 0 16 1) 1 1 16 2) 1 0 3
    { page := 1, type := 1, cells := [mkCell 0 16, mkCell 1 16], parent := none,
      children := [], expanded := true } rfl).1

/-- Claim C2 counterexample: in c2Pre the target page 2 already holds an
    interior node (type 0) with one cell; splitPage(1, 2, 2) nevertheless
    allocates a fresh node of the source's leaf kind over it, and the
    moved cells keep recorded indices 2, 3, 4 — against the claim, which
    requires allocation only if absent (so type 0 preserved) and cells
    reindexed 0, 1, 2. -/
theorem c2_counterexample :
    (getNode c2Pre.nodes 2).map (fun nd => (nd.type, nd.cells.map Cell.idx)) = some (0, [0]) ∧
    (getNode c2Post.nodes 2).map (fun nd => (nd.type, nd.cells.map Cell.idx)) = some (1, [2, 3, 4]) ∧
    ¬ (getNode c2Post.nodes 2).map (fun nd => (nd.type, nd.cells.map Cell.idx)) = some (0, [0, 1, 2]) := by
  refine ⟨rfl, rfl, ?_⟩
  intro h
  rw [show (getNode c2Post.nodes 2).map (fun nd => (nd.type, nd.cells.map Cell.idx)) = some (1, [2, 3, 4]) from rfl] at h
  simp at h

/-- Claim C2 amended: for a store holding a node at fromPageId and a
    distinct toPageId, splitPage allocates a fresh node of the source's
    kind at toPageId unconditionally (replacing any node already there),
    moves exactly the cells at position ≥ splitCellIndex to it preserving
    their relative order and their recorded attributes, and leaves the
    source with the cells below splitCellIndex; both nodes' cell
    sequences are position-contiguous from 0 as lists, but recorded idx
    attributes are not rewritten. -/
theorem c2_splitPage_moves (s : VisState) (fromP toP i : Nat) (now : ℚ) (nd : Node)
    (h : getNode s.nodes fromP = some nd) (hne : fromP ≠ toP) :
    getNode (splitPage s fromP toP i now).nodes fromP = some ({ nd with cells := nd.cells.take i }) ∧
    getNode (splitPage s fromP toP i now).nodes toP =
      some ({ page := toP, type := nd.type, cells := nd.cells.drop i, parent := none,
              children := [], expanded := true }) := by
  have h2 : getNode (setNode (setNode s.nodes toP
      { page := toP, type := nd.type, cells := [], parent := none,
        children := [], expanded := true }) fromP ({ nd with cells := nd.cells.take i })) toP =
      some { page := toP, type := nd.type, cells := [], parent := none,
             children := [], expanded := true } := by
    rw [getNode_setNode_ne _ _ _ _ (Ne.symm hne), getNode_setNode_self]
  cases hb : s.showTransitions <;>
    simp [splitPage, h, hne, addPage, hb, h2, getNode_setNode_self, getNode_setNode_ne _ _ _ _ hne]

/-- Claim C2 witness: the amended statement on c2Pre at split index 2 —
    the five-cell source keeps the two cells below the split point and
    the target receives the three cells from position 2 on, the spec's
    concrete example with sizes 2 and 3. -/
theorem c2_witness :
    getNode c2Post.nodes 1 =
      some ({ page := 1, type := 1,
              cells := [mkCell 0 16, mkCell 1 16],
              parent := none, children := [], expanded := true }) ∧
    getNode c2Post.nodes 2 =
      some ({ page := 2, type := 1,
              cells := [mkCell 2 16, mkCell 3 16, mkCell 4 16],
              parent := none, children := [], expanded := true }) :=
  c2_splitPage_moves c2Pre 1 2 2 9
    { page := 1, type := 1,
      cells := [mkCell 0 16, mkCell 1 16, mkCell 2 16, mkCell 3 16, mkCell 4 16],
      parent := none, children := [], expanded := true } rfl (by decide)

/-- Claim C3 counterexample: onEvent(2, "not json") throws the parse
    error past handleEvent's boundary (there is no catch), with the event
    counter already incremented — the claim asserts the boundary never
    throws. -/
theorem c3_counterexample :
    onEvent app0 2 notJson 0 =
      Except.error { em := { events := [], eventCount := 1 }, vis := initVis } := rfl

/-- Claim C3 amended: for every event code and payload, when the payload
    is not parseable the event-intake throws the parse error past its
    boundary: the event counter is incremented (the object literal
    evaluates eventCount++ before JSON.parse), but no record is appended,
    no listener runs, and the visualizer State Store and highlight set
    are unchanged. -/
theorem c3_malformed_payload_throws (app : AppState) (code : Nat) (payload : String) (now : ℚ)
    (h : jsonParse payload = none) :
    onEvent app code payload now =
      Except.error { app with em := { app.em with eventCount := app.em.eventCount + 1 } } := by
  simp [onEvent, handleEvent, h]

/-- Claim C3 witness: the amended statement at the concrete unparsable
    payload. -/
theorem c3_witness :
    jsonParse notJson = none ∧
    onEvent app0 3 notJson 5 =
      Except.error { app0 with em := { app0.em with eventCount := app0.em.eventCount + 1 } } :=
  ⟨rfl, c3_malformed_payload_throws app0 3 notJson 5 rfl⟩

/-- Claim C6: with transitions enabled, an Insert or Delete applied to a
    present page schedules exactly one highlight on that page with base
    duration 500; a Split applied to a present source page schedules
    exactly two highlights, on the old and the new page, with base
    duration 1000; and a highlight created at time T with duration 500 at
    speed 1 is Active at T+100 and Expired at T+600 (the removal timer
    fires once now - startTime reaches durationMs / speed).  Mutations
    addressing an absent page are no-ops per the spec's state store and
    schedule nothing. -/
theorem c6_highlight_schedule :
    (∀ (s : VisState) (p i k : Nat) (now : ℚ) (nd : Node), s.showTransitions = true →
       getNode s.nodes p = some nd →
       (addCell s p i k now).highlights = s.highlights ++ [⟨p, now, 500, s.animationSpeed⟩]) ∧
    (∀ (s : VisState) (p i : Nat) (now : ℚ) (nd : Node), s.showTransitions = true →
       getNode s.nodes p = some nd →
       (deleteCell s p i now).highlights = s.highlights ++ [⟨p, now, 500, s.animationSpeed⟩]) ∧
    (∀ (s : VisState) (fromP toP i : Nat) (now : ℚ) (nd : Node), s.showTransitions = true →
       getNode s.nodes fromP = some nd →
       (splitPage s fromP toP i now).highlights =
         s.highlights ++ [⟨fromP, now, 1000, s.animationSpeed⟩, ⟨toP, now, 1000, s.animationSpeed⟩]) ∧
    (∀ (p : Nat) (t : ℚ),
       highlightActiveAt ⟨p, t, 500, 1⟩ (t + 100) ∧ highlightExpiredAt ⟨p, t, 500, 1⟩ (t + 600)) := by
  refine ⟨?_, ?_, ?_, ?_⟩
  · intro s p i k now nd hb h
    simp [addCell, h, hb]
  · intro s p i now nd hb h
    simp [deleteCell, h, hb]
  · intro s fromP toP i now nd hb h
    simp only [splitPage, h, hb, if_true]
    split <;> split_ifs <;> simp [addPage]
  · intro p t
    constructor
    · constructor
      · linarith
      · show t + 100 - t < 500 / 1
        norm_num
    · show (500 : ℚ) / 1 ≤ t + 600 - t
      norm_num

/-- Claim C6 witness: the schedule evaluated on a one-node store with
    transitions on and speed 1, and the activity window at times 100 and
    600 for a highlight created at time 0. -/
theorem c6_witness :
    (addCell (addPage initVis 1 1) 1 0 16 7).highlights = [] ++ [⟨1, 7, 500, 1⟩] ∧
    (deleteCell (addPage initVis 1 1) 1 0 7).highlights = [] ++ [⟨1, 7, 500, 1⟩] ∧
    (splitPage (addPage initVis 1 1) 1 2 0 7).highlights = [] ++ [⟨1, 7, 1000, 1⟩, ⟨2, 7, 1000, 1⟩] ∧
    (highlightActiveAt ⟨1, 0, 500, 1⟩ (0 + 100) ∧ highlightExpiredAt ⟨1, 0, 500, 1⟩ (0 + 600)) :=
  ⟨c6_highlight_schedule.1 (addPage initVis 1 1) 1 0 16 7 (mkTreeNode 1 []) rfl rfl,
   c6_highlight_schedule.2.1 (addPage initVis 1 1) 1 0 7 (mkTreeNode 1 []) rfl rfl,
   c6_highlight_schedule.2.2.1 (addPage initVis 1 1) 1 2 0 7 (mkTreeNode 1 []) rfl rfl,
   c6_highlight_schedule.2.2.2 1 0⟩

/-- Claim C7: an event whose code is outside the mapped set (above 13,
    hence without a registered listener) with a parseable payload is
    appended to the event log but leaves the visualizer — its node store
    and its highlight schedule — entirely unchanged, and the intake
    succeeds (no failure). -/
theorem c7_unknown_code_no_effect (app : AppState) (code : Nat) (payload : String) (d : Json)
    (now : ℚ) (hd : jsonParse payload = some d) (hc : 13 < code) :
    onEvent app code payload now =
      Except.ok { em := { events := app.em.events ++ [mkEvent app.em code d now],
                          eventCount := app.em.eventCount + 1 },
                  vis := app.vis } := by
  have h0 : code ≠ 0 := by omega
  have h6 : code ≠ 6 := by omega
  have h7 : code ≠ 7 := by omega
  have h2 : code ≠ 2 := by omega
  have h3 : code ≠ 3 := by omega
  have h4 : code ≠ 4 := by omega
  simp [onEvent, handleEvent, hd, connectEvents, mkEvent, h0, h6, h7, h2, h3, h4]

/-- Claim C7 witness: onEvent(99, the empty-object payload) on the fresh
    application state. -/
theorem c7_witness :
    jsonParse emptyObjPayload = some (Json.obj []) ∧ 13 < 99 ∧
    onEvent app0 99 emptyObjPayload 0 =
      Except.ok { em := { events := app0.em.events ++ [mkEvent app0.em 99 (Json.obj []) 0],
                          eventCount := app0.em.eventCount + 1 },
                  vis := app0.vis } :=
  ⟨rfl, by omega, c7_unknown_code_no_effect app0 99 emptyObjPayload (Json.obj []) 0 rfl (by omega)⟩

/-- Claim C8: for every drawing width, laying out a store holding exactly
    the root node with no children places it with its level extent of
    count * (nodeWidth + spacing) horizontally centered (the extent's
    midpoint is the canvas midline) and vertically at the top margin. -/
theorem c8_single_root_centered (w : ℚ) (kind : Nat) :
    layoutRun (addPage initVis 1 kind) w 2 =
      some [(1, (w - 1 * (nodeWidth + horizontalSpacing)) / 2, topMargin)] ∧
    (w - 1 * (nodeWidth + horizontalSpacing)) / 2 + 1 * (nodeWidth + horizontalSpacing) / 2 = w / 2 := by
  constructor
  · simp [layoutRun, addPage, initVis, setNode, getNode, buildLevels, resolveChildren,
          placeAt, layoutPositions, rowPositions]
  · ring

theorem getNode_setNode_isSome (m : NodeMap) (p c : Nat) (nd₀ nd : Node)
    (h : getNode m p = some nd₀) :
    (getNode (setNode m p nd) c).isSome = (getNode m c).isSome := by
  by_cases hc : c = p
  · subst hc
    rw [getNode_setNode_self, h]
    rfl
  · rw [getNode_setNode_ne _ _ _ _ hc]

theorem childrenOf_setNode_same (m : NodeMap) (p : Nat) (nd nd' : Node)
    (h : getNode m p = some nd) (hch : nd'.children = nd.children) (q : Nat) :
    childrenOf (setNode m p nd') q = childrenOf m q := by
  by_cases hq : q = p
  · subst hq
    simp only [childrenOf, getNode_setNode_self, h, hch]
    refine List.filter_congr ?_
    intro c _
    rw [getNode_setNode_isSome m q c nd nd' h]
  · rw [childrenOf, childrenOf, getNode_setNode_ne _ _ _ _ hq]
    cases getNode m q with
    | none => rfl
    | some ndq =>
        refine List.filter_congr ?_
        intro c _
        rw [getNode_setNode_isSome m p c nd nd' h]

theorem reachList_congr (m m' : NodeMap) (root : Nat)
    (h : ∀ q, childrenOf m' q = childrenOf m q) (k : Nat) :
    reachList m' root k = reachList m root k := by
  have hf : childrenOf m' = childrenOf m := funext h
  induction k with
  | zero => rfl
  | succ k ih => rw [reachList, reachList, ih, hf]

/-- Claim C9 counterexample: after clicking root 1 of the two-node chain
    its expanded flag is false, yet layout still assigns a position to
    the child page 2 — buildLevels and layout never consult the expanded
    flag, so the collapsed node's subtree is not skipped as the claim
    requires. -/
theorem c9_counterexample :
    (getNode chainCollapsed.nodes 1).map Node.expanded = some false ∧
    (layoutRun chainCollapsed 800 4).map (fun ps => ps.map Prod.fst) = some [1, 2] ∧
    ¬ (layoutRun chainCollapsed 800 4).map (fun ps => ps.map Prod.fst) = some [1] := by
  refine ⟨rfl, by decide, ?_⟩
  intro h
  rw [show (layoutRun chainCollapsed 800 4).map (fun ps => ps.map Prod.fst) = some [1, 2]
      from by decide] at h
  simp at h

/-- Claim C9 amended: a click toggles exactly the clicked node's UI-local
    expanded flag (every other node is untouched and no node is deleted:
    the set of live pages is unchanged), but the layout traversal ignores
    the flag — the reach lists it walks, hence the set of nodes layout
    visits and places, are identical before and after the toggle; a
    collapsed node's subtree is not skipped. -/
theorem c9_toggle_expansion (s : VisState) (p : Nat) (nd : Node)
    (h : getNode s.nodes p = some nd) :
    getNode (toggleNodeExpansion s p).nodes p = some ({ nd with expanded := !nd.expanded }) ∧
    (∀ q, q ≠ p → getNode (toggleNodeExpansion s p).nodes q = getNode s.nodes q) ∧
    allNodes (toggleNodeExpansion s p).nodes = allNodes s.nodes ∧
    (∀ root k, reachList (toggleNodeExpansion s p).nodes root k = reachList s.nodes root k) := by
  refine ⟨?_, ?_, ?_, ?_⟩
  · simp [toggleNodeExpansion, h, getNode_setNode_self]
  · intro q hq
    simp [toggleNodeExpansion, h, getNode_setNode_ne _ _ _ _ hq]
  · simp only [toggleNodeExpansion, h]
    exact allNodes_setNode_of_mem s.nodes p nd _ h
  · intro root k
    simp only [toggleNodeExpansion, h]
    exact reachList_congr s.nodes _ root
      (childrenOf_setNode_same s.nodes p nd ({ nd with expanded := !nd.expanded }) h rfl) k

/-- Claim C9 witness: toggling root 1 of the two-node chain flips only
    its expanded flag, keeps both pages live, and leaves the walked reach
    list of the child level unchanged. -/
theorem c9_witness :
    getNode chainCollapsed.nodes 1 = some ({ mkTreeNode 1 [2] with expanded := !true }) ∧
    allNodes chainCollapsed.nodes = allNodes chainVis.nodes ∧
    reachList chainCollapsed.nodes 1 1 = reachList chainVis.nodes 1 1 := by
  have hroot : getNode chainVis.nodes 1 = some (mkTreeNode 1 [2]) := rfl
  have h := c9_toggle_expansion chainVis 1 (mkTreeNode 1 [2]) hroot
  exact ⟨h.1, h.2.2.1, h.2.2.2 1 1⟩

theorem getNode_mem (m : NodeMap) (p : Nat) (nd : Node) (h : getNode m p = some nd) :
    (p, nd) ∈ m := by
  induction m with
  | nil => simp [getNode] at h
  | cons e rest ih =>
      obtain ⟨q, nd₀⟩ := e
      by_cases hq : q = p
      · subst hq
        simp only [getNode, if_pos] at h
        injection h with h
        subst h
        exact List.mem_cons_self _ _
      · simp only [getNode, if_neg hq] at h
        exact List.mem_cons_of_mem _ (ih h)

theorem keysMatch_page (m : NodeMap) (p : Nat) (nd : Node)
    (hm : KeysMatch m) (h : getNode m p = some nd) : nd.page = p :=
  hm (p, nd) (getNode_mem m p nd h)

theorem filterMap_getNode_pages (m : NodeMap) (hm : KeysMatch m) (cs : List Nat) :
    (cs.filterMap (fun c => getNode m c)).map Node.page =
      cs.filter (fun c => (getNode m c).isSome) := by
  induction cs with
  | nil => rfl
  | cons c rest ih =>
      cases hc : getNode m c with
      | none => simp [List.filterMap_cons, List.filter_cons, hc, ih]
      | some cnd =>
          simp [List.filterMap_cons, List.filter_cons, hc, ih,
                keysMatch_page m c cnd hm hc]

theorem resolveChildren_pages (m : NodeMap) (hm : KeysMatch m) (p : Nat) (nd : Node)
    (h : getNode m p = some nd) :
    (resolveChildren m nd).map Node.page = childrenOf m p := by
  rw [resolveChildren, childrenOf, h, filterMap_getNode_pages m hm]

theorem resolveChildren_resolves (m : NodeMap) (hm : KeysMatch m) (nd cnd : Node)
    (h : cnd ∈ resolveChildren m nd) : getNode m cnd.page = some cnd := by
  rw [resolveChildren] at h
  obtain ⟨c, _, hc⟩ := List.mem_filterMap.mp h
  rwa [keysMatch_page m c cnd hm hc]

theorem reachList_nil_succ (m : NodeMap) (root k : Nat)
    (h : reachList m root k = []) : reachList m root (k + 1) = [] := by
  rw [reachList, h]
  rfl

theorem reachList_nil_of_ge (m : NodeMap) (root k j : Nat)
    (h : reachList m root k = []) (hk : k ≤ j) : reachList m root j = [] := by
  induction j, hk using Nat.le_induction with
  | base => exact h
  | succ j _ ih => exact reachList_nil_succ m root j ih

theorem mem_reachList_succ (m : NodeMap) (root k q c : Nat)
    (hq : q ∈ reachList m root k) (hc : c ∈ childrenOf m q) :
    c ∈ reachList m root (k + 1) := by
  rw [reachList]
  exact List.mem_flatMap.mpr ⟨q, hq, hc⟩

theorem nthD_append_lt {α : Type} (P Q : List α) (i : Nat) (d : α) (h : i < P.length) :
    nthD (P ++ Q) i d = nthD P i d := by
  induction P generalizing i with
  | nil => simp at h
  | cons x rest ih =>
      cases i with
      | zero => rfl
      | succ i => exact ih i (by simpa using h)

theorem nthD_append_ge {α : Type} (P Q : List α) (i : Nat) (d : α) (h : P.length ≤ i) :
    nthD (P ++ Q) i d = nthD Q (i - P.length) d := by
  induction P generalizing i with
  | nil => simp [nthD]
  | cons x rest ih =>
      cases i with
      | zero => simp at h
      | succ i =>
          have h' : rest.length ≤ i := by simpa using h
          have harg : i - rest.length = i + 1 - (x :: rest).length := by
            simp only [List.length_cons]
            omega
          show nthD (rest ++ Q) i d = nthD Q (i + 1 - (x :: rest).length) d
          rw [ih i h', harg]

theorem nthD_ge_length {α : Type} (P : List α) (i : Nat) (d : α) (h : P.length ≤ i) :
    nthD P i d = d := by
  induction P generalizing i with
  | nil => cases i <;> rfl
  | cons x rest ih =>
      cases i with
      | zero => simp at h
      | succ i => exact ih i (by simpa using h)

theorem reachLevels_length (m : NodeMap) (root l : Nat) :
    (reachLevels m root l).length = l := by
  induction l with
  | zero => rfl
  | succ l ih => simp [reachLevels, ih]

theorem nthD_reachLevels (m : NodeMap) (root l i : Nat) (h : i < l) :
    nthD (reachLevels m root l) i [] = reachList m root i := by
  induction l with
  | zero => omega
  | succ l ih =>
      rw [reachLevels]
      by_cases hi : i < l
      · rw [nthD_append_lt _ _ _ _ (by rw [reachLevels_length]; exact hi)]
        exact ih hi
      · have hil : i = l := by omega
        subst hil
        rw [nthD_append_ge _ _ _ _ (by rw [reachLevels_length])]
        rw [reachLevels_length, Nat.sub_self]
        rfl

theorem pagesOf_placeAt_len (levels : List (List Node)) (nd : Node) :
    pagesOf (placeAt levels levels.length nd) = pagesOf levels ++ [[nd.page]] := by
  induction levels with
  | nil => rfl
  | cons lv rest ih => simp [placeAt, pagesOf, List.length_cons] at ih ⊢; exact ih

theorem pagesOf_placeAt_last (levels : List (List Node)) (P : List (List Nat))
    (a : List Nat) (nd : Node) (h : pagesOf levels = P ++ [a]) :
    pagesOf (placeAt levels P.length nd) = P ++ [a ++ [nd.page]] := by
  induction levels generalizing P with
  | nil => simp [pagesOf] at h
  | cons lv rest ih =>
      cases P with
      | nil =>
          simp only [pagesOf, List.map_cons, List.nil_append, List.cons.injEq] at h
          obtain ⟨ha, hrest⟩ := h
          have hre : rest = [] := by
            cases rest with
            | nil => rfl
            | cons r rr => simp [pagesOf] at hrest
          subst hre
          simp [placeAt, pagesOf, ha]
      | cons P₀ P' =>
          simp only [pagesOf, List.map_cons, List.cons_append, List.cons.injEq] at h
          obtain ⟨h₀, hrest⟩ := h
          simp only [List.length_cons, placeAt, pagesOf, List.map_cons]
          rw [h₀]
          have hih := ih P' hrest
          simp only [pagesOf] at hih
          rw [hih]
          simp

theorem pagesOf_placeAt_len' (levels : List (List Node)) (l : Nat) (nd : Node)
    (h : levels.length = l) :
    pagesOf (placeAt levels l nd) = pagesOf levels ++ [[nd.page]] := by
  subst h
  exact pagesOf_placeAt_len levels nd

theorem pagesOf_placeAt_last' (levels : List (List Node)) (P : List (List Nat))
    (a : List Nat) (l : Nat) (nd : Node) (h : pagesOf levels = P ++ [a])
    (hl : P.length = l) :
    pagesOf (placeAt levels l nd) = P ++ [a ++ [nd.page]] := by
  subst hl
  exact pagesOf_placeAt_last levels P a nd h

theorem bfs_inv_final (m : NodeMap) (root l : Nat) (a : List Nat) (q₁ q₂ : List Node)
    (levels : List (List Node)) (hinv : BfsInv m root l a q₁ q₂ [] levels) :
    ∀ i, nthD (pagesOf levels) i [] = reachList m root i := by
  obtain ⟨h1, h2, h3, h4, _, _⟩ := hinv
  have hq1 : q₁ = [] := by
    cases q₁ with
    | nil => rfl
    | cons x xs => simp at h1
  subst hq1
  have hq2 : q₂ = [] := by
    cases q₂ with
    | nil => rfl
    | cons x xs => simp at h1
  subst hq2
  simp only [List.map_nil, List.append_nil] at h3
  have h4' : reachList m root (l + 1) = [] := by simpa using h4
  intro i
  by_cases ha : a = []
  · rw [if_pos ha, List.append_nil] at h2
    by_cases hi : i < l
    · rw [h2, nthD_reachLevels m root l i hi]
    · have hl : reachList m root l = [] := by rw [h3, ha]
      rw [h2, nthD_ge_length _ _ _ (by rw [reachLevels_length]; omega)]
      exact (reachList_nil_of_ge m root l i hl (by omega)).symm
  · rw [if_neg ha] at h2
    rcases lt_trichotomy i l with hi | hi | hi
    · rw [h2, nthD_append_lt _ _ _ _ (by rw [reachLevels_length]; exact hi),
        nthD_reachLevels m root l i hi]
    · subst hi
      rw [h2, nthD_append_ge _ _ _ _ (by rw [reachLevels_length]),
        reachLevels_length, Nat.sub_self]
      exact h3.symm
    · rw [h2, nthD_ge_length _ _ _ (by simp [reachLevels_length]; omega)]
      exact (reachList_nil_of_ge m root (l + 1) i h4' (by omega)).symm

theorem bfs_inv_step (m : NodeMap) (root : Nat) (hm : KeysMatch m)
    (l : Nat) (a : List Nat) (nd : Node) (q₁ q₂ : List Node) (levels : List (List Node))
    (h2 : pagesOf levels = reachLevels m root l ++ (if a = [] then [] else [a]))
    (h3 : reachList m root l = a ++ (nd :: q₁).map Node.page)
    (h4 : reachList m root (l + 1) =
      q₂.map Node.page ++ ((nd :: q₁).map Node.page).flatMap (childrenOf m))
    (h5 : ∀ x ∈ nd :: q₁, getNode m x.page = some x)
    (h6 : ∀ x ∈ q₂, getNode m x.page = some x) :
    BfsInv m root l (a ++ [nd.page]) q₁ (q₂ ++ resolveChildren m nd)
      ((q₁.map (fun n => (n, l)) ++ q₂.map (fun n => (n, l + 1))) ++
        (resolveChildren m nd).map (fun c => (c, l + 1)))
      (placeAt levels l nd) := by
  have hnd : getNode m nd.page = some nd := h5 nd (List.mem_cons_self _ _)
  have hrc : (resolveChildren m nd).map Node.page = childrenOf m nd.page :=
    resolveChildren_pages m hm nd.page nd hnd
  refine ⟨?_, ?_, ?_, ?_, ?_, ?_⟩
  · simp [List.map_append, List.append_assoc]
  · have hne : a ++ [nd.page] ≠ [] := by simp
    rw [if_neg hne]
    by_cases ha : a = []
    · subst ha
      rw [if_pos rfl, List.append_nil] at h2
      have hlen : levels.length = l := by
        have hh := congrArg List.length h2
        simpa [pagesOf, reachLevels_length] using hh
      rw [pagesOf_placeAt_len' levels l nd hlen, h2]
      simp
    · rw [if_neg ha] at h2
      exact pagesOf_placeAt_last' levels (reachLevels m root l) a l nd h2
        (reachLevels_length m root l)
  · rw [h3, List.map_cons, List.append_cons]
  · rw [h4, List.map_cons, List.map_append, hrc]
    simp [List.append_assoc]
  · exact fun x hx => h5 x (List.mem_cons_of_mem _ hx)
  · intro x hx
    rcases List.mem_append.mp hx with hx | hx
    · exact h6 x hx
    · exact resolveChildren_resolves m hm nd x hx

theorem bfs_inv_shift (m : NodeMap) (root l : Nat) (a : List Nat) (nd : Node)
    (q₂' : List Node) (queue : List (Node × Nat)) (levels : List (List Node))
    (hinv : BfsInv m root l a [] (nd :: q₂') queue levels) :
    BfsInv m root (l + 1) [] (nd :: q₂') [] queue levels := by
  obtain ⟨h1, h2, h3, h4, _, h6⟩ := hinv
  simp only [List.map_nil, List.nil_append] at h1
  simp only [List.map_nil, List.append_nil] at h3
  have h4' : reachList m root (l + 1) = (nd :: q₂').map Node.page := by simpa using h4
  have ha : a ≠ [] := by
    intro he
    rw [he] at h3
    have := reachList_nil_succ m root l h3
    rw [h4'] at this
    simp at this
  refine ⟨?_, ?_, ?_, ?_, ?_, ?_⟩
  · simpa using h1
  · rw [if_pos rfl, List.append_nil]
    show pagesOf levels = reachLevels m root l ++ [reachList m root l]
    rw [h2, if_neg ha, h3]
  · simpa using h4'
  · show reachList m root (l + 1 + 1) = _
    rw [reachList, h4']
    simp
  · exact fun x hx => h6 x hx
  · intro x hx
    simp at hx

theorem buildLevels_inv (m : NodeMap) (root : Nat) (hm : KeysMatch m) :
    ∀ (fuel : Nat) (queue : List (Node × Nat)) (levels : List (List Node))
      (l : Nat) (a : List Nat) (q₁ q₂ : List Node) (final : List (List Node)),
      BfsInv m root l a q₁ q₂ queue levels →
      buildLevels m fuel queue levels = some final →
      ∀ i, nthD (pagesOf final) i [] = reachList m root i := by
  intro fuel
  induction fuel with
  | zero =>
      intro queue levels l a q₁ q₂ final hinv hrun i
      cases queue with
      | nil =>
          simp only [buildLevels, Option.some.injEq] at hrun
          subst hrun
          exact bfs_inv_final m root l a q₁ q₂ _ hinv i
      | cons e rest => simp [buildLevels] at hrun
  | succ fuel ih =>
      intro queue levels l a q₁ q₂ final hinv hrun i
      rcases q₁ with _ | ⟨nd, q₁'⟩
      · rcases q₂ with _ | ⟨nd, q₂'⟩
        · have hq : queue = [] := by simpa using hinv.1
          subst hq
          simp only [buildLevels, Option.some.injEq] at hrun
          subst hrun
          exact bfs_inv_final m root l a [] [] _ hinv i
        · obtain ⟨hs1, hs2, hs3, hs4, hs5, hs6⟩ :=
            bfs_inv_shift m root l a nd q₂' queue levels hinv
          rw [hs1, List.map_cons, List.cons_append] at hrun
          simp only [buildLevels] at hrun
          exact ih _ _ (l + 1) ([] ++ [nd.page]) q₂' ([] ++ resolveChildren m nd) final
            (bfs_inv_step m root hm (l + 1) [] nd q₂' [] levels hs2 hs3 hs4 hs5 hs6) hrun i
      · obtain ⟨h1, h2, h3, h4, h5, h6⟩ := hinv
        rw [h1, List.map_cons, List.cons_append] at hrun
        simp only [buildLevels] at hrun
        exact ih _ _ l (a ++ [nd.page]) q₁' (q₂ ++ resolveChildren m nd) final
          (bfs_inv_step m root hm l a nd q₁' q₂ levels h2 h3 h4 h5 h6) hrun i

/-- Claim C5 counterexample: in the diamond store (1 points to 2 and 3,
    both pointing to 4) the traversal places node 4 twice — once per
    discovery, in level 2 — because buildLevels keeps no visited set;
    the claim requires a node reachable from multiple parents to appear
    exactly once. -/
theorem c5_counterexample :
    (buildLevels diamondMap 10 [(mkTreeNode 1 [2, 3], 0)] []).map pagesOf =
      some [[1], [2, 3], [4, 4]] ∧
    ¬ (buildLevels diamondMap 10 [(mkTreeNode 1 [2, 3], 0)] []).map pagesOf =
      some [[1], [2, 3], [4]] := by
  refine ⟨by decide, ?_⟩
  intro h
  rw [show (buildLevels diamondMap 10 [(mkTreeNode 1 [2, 3], 0)] []).map pagesOf =
      some [[1], [2, 3], [4, 4]] from by decide] at h
  simp at h

/-- Claim C5 amended: layout performs a breadth-first traversal from the
    root grouping node placements into levels (level 0 = root), with
    level i listing, in first-discovered-first-placed order, one
    placement per walk of length i from the root — the i-th level's pages
    are exactly reachList i, and levels beyond the result are empty.  A
    node reachable from multiple parents is therefore placed once per
    discovery (it can appear several times, in one or several levels),
    not exactly once. -/
theorem c5_levels_characterization (m : NodeMap) (root : Nat) (rootNd : Node)
    (fuel : Nat) (final : List (List Node)) (hm : KeysMatch m)
    (hroot : getNode m root = some rootNd)
    (hrun : buildLevels m fuel [(rootNd, 0)] [] = some final) :
    ∀ i, nthD (pagesOf final) i [] = reachList m root i := by
  have hpage : rootNd.page = root := keysMatch_page m root rootNd hm hroot
  refine buildLevels_inv m root hm fuel [(rootNd, 0)] [] 0 [] [rootNd] [] final
    ⟨?_, ?_, ?_, ?_, ?_, ?_⟩ hrun
  · simp
  · simp [pagesOf, reachLevels]
  · simp [reachList, hpage]
  · simp [reachList, hpage]
  · intro x hx
    rcases List.mem_singleton.mp hx with rfl
    rw [hpage]
    exact hroot
  · intro x hx
    simp at hx

/-- Claim C5 witness: the characterization applied to the diamond store
    at level 2, whose page list is the two discoveries of node 4 — the
    walks 1-2-4 and 1-3-4. -/
theorem c5_witness :
    nthD (pagesOf [[mkTreeNode 1 [2, 3]],
      [mkTreeNode 2 [4], mkTreeNode 3 [4]],
      [mkTreeNode 4 [], mkTreeNode 4 []]]) 2 [] = reachList diamondMap 1 2 :=
  c5_levels_characterization diamondMap 1 (mkTreeNode 1 [2, 3]) 10
    [[mkTreeNode 1 [2, 3]],
     [mkTreeNode 2 [4], mkTreeNode 3 [4]],
     [mkTreeNode 4 [], mkTreeNode 4 []]] (by decide) rfl rfl 2

theorem mem_delNode (m : NodeMap) (p : Nat) (e : Nat × Node) (h : e ∈ delNode m p) :
    e ∈ m := by
  induction m with
  | nil => simp [delNode] at h
  | cons e₀ rest ih =>
      obtain ⟨q, nd⟩ := e₀
      by_cases hq : q = p
      · rw [delNode, if_pos hq] at h
        exact List.mem_cons_of_mem _ (ih h)
      · rw [delNode, if_neg hq] at h
        rcases List.mem_cons.mp h with h | h
        · exact h ▸ List.mem_cons_self _ _
        · exact List.mem_cons_of_mem _ (ih h)

theorem keysMatch_delNode (m : NodeMap) (p : Nat) (hm : KeysMatch m) :
    KeysMatch (delNode m p) :=
  fun e he => hm e (mem_delNode m p e he)

theorem mem_childrenOf_isSome (m : NodeMap) (q c : Nat) (h : c ∈ childrenOf m q) :
    (getNode m c).isSome := by
  rw [childrenOf] at h
  cases hq : getNode m q with
  | none => rw [hq] at h; simp at h
  | some nd =>
      rw [hq] at h
      exact (List.mem_filter.mp h).2

theorem not_mem_reachList_dead (m : NodeMap) (root p : Nat) (rootNd : Node)
    (hp : getNode m p = none) (hroot : getNode m root = some rootNd) :
    ∀ i, p ∉ reachList m root i := by
  intro i hi
  cases i with
  | zero =>
      rw [reachList, List.mem_singleton] at hi
      rw [hi, hroot] at hp
      cases hp
  | succ i =>
      rw [reachList] at hi
      obtain ⟨q, _, hq⟩ := List.mem_flatMap.mp hi
      have := mem_childrenOf_isSome m q p hq
      rw [hp] at this
      cases this

theorem buildLevels_pages_reach (m : NodeMap) (root : Nat) (rootNd : Node)
    (fuel : Nat) (final : List (List Node)) (hm : KeysMatch m)
    (hroot : getNode m root = some rootNd)
    (hrun : buildLevels m fuel [(rootNd, 0)] [] = some final) :
    ∀ i, nthD (pagesOf final) i [] = reachList m root i := by
  have hpage : rootNd.page = root := keysMatch_page m root rootNd hm hroot
  refine buildLevels_inv m root hm fuel [(rootNd, 0)] [] 0 [] [rootNd] [] final
    ⟨?_, ?_, ?_, ?_, ?_, ?_⟩ hrun
  · simp
  · simp [pagesOf, reachLevels]
  · simp [reachList, hpage]
  · simp [reachList, hpage]
  · intro x hx
    rcases List.mem_singleton.mp hx with rfl
    rw [hpage]
    exact hroot
  · intro x hx
    simp at hx

/-- Claim C4: after Free(pageId), the live nodes never contain pageId;
    every other node is retained verbatim (so its children list still
    holds the reference); rendering draws no connecting line to the freed
    page (drawConnections skips a children entry that does not resolve);
    and the layout traversal never visits or places the freed page — its
    levels contain only pages that are live at traversal time.  All
    embedded operations are total on dangling references: nothing throws,
    the reference simply resolves to nothing. -/
theorem c4_free_dangling (s : VisState) (p : Nat) (hm : KeysMatch s.nodes) :
    p ∉ allNodes (freePage s p).nodes ∧
    (∀ q, q ≠ p → getNode (freePage s p).nodes q = getNode s.nodes q) ∧
    (∀ nd : Node, p ∉ drawConnections (freePage s p).nodes nd) ∧
    (∀ (rootNd : Node) (fuel : Nat) (final : List (List Node)),
      getNode (freePage s p).nodes s.rootPage = some rootNd →
      buildLevels (freePage s p).nodes fuel [(rootNd, 0)] [] = some final →
      ∀ i, p ∉ nthD (pagesOf final) i []) := by
  have hdead : getNode (freePage s p).nodes p = none := getNode_delNode_self s.nodes p
  refine ⟨not_mem_allNodes_delNode s.nodes p, ?_, ?_, ?_⟩
  · intro q hq
    exact getNode_delNode_ne s.nodes p q hq
  · intro nd hmem
    have := (List.mem_filter.mp hmem).2
    rw [hdead] at this
    cases this
  · intro rootNd fuel final hroot hrun i hmem
    have hmk : KeysMatch (freePage s p).nodes := keysMatch_delNode s.nodes p hm
    rw [buildLevels_pages_reach (freePage s p).nodes s.rootPage rootNd fuel final
      hmk hroot hrun i] at hmem
    exact not_mem_reachList_dead (freePage s p).nodes s.rootPage p rootNd hdead hroot i hmem

/-- Claim C4 witness: freeing page 2 of the three-node tree — the freed
    page leaves the live set while root 1 keeps its reference to it. -/
theorem c4_witness :
    KeysMatch treeVis.nodes ∧
    2 ∉ allNodes (freePage treeVis 2).nodes ∧
    (getNode (freePage treeVis 2).nodes 1).map Node.children = some [2, 3] :=
  ⟨by decide,
   (c4_free_dangling treeVis 2 (by decide)).1,
   by rw [(c4_free_dangling treeVis 2 (by decide)).2.1 1 (by decide)]; rfl⟩

theorem weightW_pos (c b : Nat) : 1 ≤ weightW c b := by
  cases b with
  | zero => exact le_refl 1
  | succ b => exact Nat.le_add_right 1 _

theorem maxChildren_ge (m : NodeMap) (e : Nat × Node) (h : e ∈ m) :
    e.2.children.length ≤ maxChildren m := by
  induction m with
  | nil => simp at h
  | cons e₀ rest ih =>
      have hfold : maxChildren (e₀ :: rest) = max e₀.2.children.length (maxChildren rest) := rfl
      rcases List.mem_cons.mp h with h | h
      · rw [hfold, h]
        exact Nat.le_max_left _ _
      · rw [hfold]
        exact le_trans (ih h) (Nat.le_max_right _ _)

theorem resolveChildren_length_le (m : NodeMap) (nd : Node) :
    (resolveChildren m nd).length ≤ nd.children.length :=
  List.length_filterMap_le _ _

theorem sum_map_fixed {α : Type} (ls : List α) (w : Nat) :
    (ls.map (fun _ => w)).sum = ls.length * w := by
  induction ls with
  | nil => simp
  | cons x rest ih => simp [ih, Nat.succ_mul, Nat.add_comm]

theorem qMeasure_cons (c n : Nat) (e : Node × Nat) (rest : List (Node × Nat)) :
    qMeasure c n (e :: rest) = weightW c (n - e.2) + qMeasure c n rest := by
  simp [qMeasure]

theorem qMeasure_append (c n : Nat) (q r : List (Node × Nat)) :
    qMeasure c n (q ++ r) = qMeasure c n q + qMeasure c n r := by
  simp [qMeasure]

theorem qMeasure_kids (c n l : Nat) (kids : List Node) :
    qMeasure c n (kids.map (fun k => (k, l))) = kids.length * weightW c (n - l) := by
  rw [qMeasure, List.map_map]
  have hc : ((fun e => weightW c (n - e.2)) ∘ fun k => ((k, l) : Node × Nat)) =
      fun _ => weightW c (n - l) := rfl
  rw [hc]
  exact sum_map_fixed kids _

theorem qinv_step (m : NodeMap) (root : Nat) (hm : KeysMatch m) (nd : Node) (l : Nat)
    (rest : List (Node × Nat)) (h : QInv m root ((nd, l) :: rest)) :
    QInv m root (rest ++ (resolveChildren m nd).map (fun c => (c, l + 1))) := by
  intro e he
  rcases List.mem_append.mp he with he | he
  · exact h e (List.mem_cons_of_mem _ he)
  · obtain ⟨cnd, hcmem, hce⟩ := List.mem_map.mp he
    subst hce
    have hhead := h (nd, l) (List.mem_cons_self _ _)
    have hres : getNode m cnd.page = some cnd := resolveChildren_resolves m hm nd cnd hcmem
    refine ⟨hres, ?_⟩
    apply mem_reachList_succ m root l nd.page cnd.page hhead.2
    rw [← resolveChildren_pages m hm nd.page nd hhead.1]
    exact List.mem_map_of_mem Node.page hcmem

theorem acyclic_reach_lt (m : NodeMap) (root : Nat) (hac : AcyclicFrom m root)
    (k q : Nat) (hq : q ∈ reachList m root k) : k < (allNodes m).length := by
  by_cases hk : k ≤ (allNodes m).length
  · exact hac k hk q hq
  · exfalso
    have hnil : reachList m root (allNodes m).length = [] := by
      rcases hE : reachList m root (allNodes m).length with _ | ⟨x, xs⟩
      · rfl
      · have := hac (allNodes m).length le_rfl x (by rw [hE]; exact List.mem_cons_self _ _)
        omega
    have hk' := reachList_nil_of_ge m root _ k hnil (by omega)
    rw [hk'] at hq
    simp at hq

theorem buildLevels_total_aux (m : NodeMap) (root : Nat) (hm : KeysMatch m)
    (hac : AcyclicFrom m root) :
    ∀ (fuel : Nat) (queue : List (Node × Nat)) (levels : List (List Node)),
      QInv m root queue →
      qMeasure (maxChildren m) (allNodes m).length queue ≤ fuel →
      (buildLevels m fuel queue levels).isSome = true := by
  intro fuel
  induction fuel with
  | zero =>
      intro queue levels hq hle
      cases queue with
      | nil => simp [buildLevels]
      | cons e rest =>
          exfalso
          have h1 := weightW_pos (maxChildren m) ((allNodes m).length - e.2)
          have h2 := qMeasure_cons (maxChildren m) (allNodes m).length e rest
          omega
  | succ fuel ih =>
      intro queue levels hq hle
      cases queue with
      | nil => simp [buildLevels]
      | cons e rest =>
          obtain ⟨nd, l⟩ := e
          simp only [buildLevels]
          apply ih
          · exact qinv_step m root hm nd l rest hq
          · have hentry := hq (nd, l) (List.mem_cons_self _ _)
            have hl : l < (allNodes m).length :=
              acyclic_reach_lt m root hac l nd.page hentry.2
            have hkid1 : (resolveChildren m nd).length ≤ nd.children.length :=
              resolveChildren_length_le m nd
            have hkid2 : nd.children.length ≤ maxChildren m :=
              maxChildren_ge m (nd.page, nd) (getNode_mem m nd.page nd hentry.1)
            have hmeq := qMeasure_append (maxChildren m) (allNodes m).length rest
              ((resolveChildren m nd).map (fun c => (c, l + 1)))
            have hkidm := qMeasure_kids (maxChildren m) (allNodes m).length (l + 1)
              (resolveChildren m nd)
            have hconsm := qMeasure_cons (maxChildren m) (allNodes m).length (nd, l) rest
            rw [show ((nd, l) : Node × Nat).2 = l from rfl] at hconsm
            have hsub : (allNodes m).length - l = ((allNodes m).length - (l + 1)) + 1 := by
              omega
            have hW : weightW (maxChildren m) ((allNodes m).length - l) =
                1 + maxChildren m * weightW (maxChildren m) ((allNodes m).length - (l + 1)) := by
              rw [hsub]
              rfl
            have hprod : (resolveChildren m nd).length *
                weightW (maxChildren m) ((allNodes m).length - (l + 1)) ≤
                maxChildren m * weightW (maxChildren m) ((allNodes m).length - (l + 1)) :=
              Nat.mul_le_mul_right _ (le_trans hkid1 hkid2)
            omega

theorem buildLevels_total (m : NodeMap) (root : Nat) (rootNd : Node) (hm : KeysMatch m)
    (hroot : getNode m root = some rootNd) (hac : AcyclicFrom m root) :
    ∃ fuel, (buildLevels m fuel [(rootNd, 0)] []).isSome = true := by
  have hpage : rootNd.page = root := keysMatch_page m root rootNd hm hroot
  refine ⟨qMeasure (maxChildren m) (allNodes m).length [(rootNd, 0)], ?_⟩
  apply buildLevels_total_aux m root hm hac
  · intro e he
    rcases List.mem_singleton.mp he with rfl
    refine ⟨?_, ?_⟩
    · rw [hpage]; exact hroot
    · rw [hpage]; exact List.mem_singleton.mpr rfl
  · exact le_refl _

theorem cyc_diverges :
    ∀ (fuel : Nat) (queue : List (Node × Nat)) (levels : List (List Node)),
      queue ≠ [] → (∀ e ∈ queue, e.1 = mkTreeNode 1 [1]) →
      buildLevels cycMap fuel queue levels = none := by
  intro fuel
  induction fuel with
  | zero =>
      intro queue levels hne hall
      cases queue with
      | nil => exact absurd rfl hne
      | cons e rest => simp [buildLevels]
  | succ fuel ih =>
      intro queue levels hne hall
      cases queue with
      | nil => exact absurd rfl hne
      | cons e rest =>
          obtain ⟨nd, l⟩ := e
          have hnd : nd = mkTreeNode 1 [1] := hall (nd, l) (List.mem_cons_self _ _)
          subst hnd
          simp only [buildLevels]
          have hres : resolveChildren cycMap (mkTreeNode 1 [1]) = [mkTreeNode 1 [1]] := by
            decide
          rw [hres]
          apply ih
          · simp
          · intro e he
            rcases List.mem_append.mp he with he | he
            · exact hall e (List.mem_cons_of_mem _ he)
            · rw [List.mem_singleton.mp he]

/-- Claim C10: buildLevels enqueues every resolvable child of every
    dequeued node with no visited-set check, so its while loop is
    terminating exactly under acyclicity of the children-reference graph
    reachable from the root (stated through the finite-graph equivalent
    bound on walk lengths): for every keyed store whose reachable graph
    is acyclic some fuel completes the traversal, while on the self-loop
    store the loop never finishes — no amount of fuel suffices. -/
theorem c10_buildLevels_termination :
    (∀ (m : NodeMap) (root : Nat) (rootNd : Node), KeysMatch m →
       getNode m root = some rootNd → AcyclicFrom m root →
       ∃ fuel, (buildLevels m fuel [(rootNd, 0)] []).isSome = true) ∧
    (∀ fuel, buildLevels cycMap fuel [(mkTreeNode 1 [1], 0)] [] = none) := by
  constructor
  · intro m root rootNd hm hroot hac
    exact buildLevels_total m root rootNd hm hroot hac
  · intro fuel
    apply cyc_diverges fuel [(mkTreeNode 1 [1], 0)] []
    · simp
    · intro e he
      rw [List.mem_singleton.mp he]

/-- Claim C10 witness: the acyclic two-node chain terminates — the
    hypotheses are discharged by computation on the concrete store. -/
theorem c10_witness :
    KeysMatch chainMap ∧ AcyclicFrom chainMap 1 ∧
    ∃ fuel, (buildLevels chainMap fuel [(mkTreeNode 1 [2], 0)] []).isSome = true :=
  ⟨by decide, by decide,
   c10_buildLevels_termination.1 chainMap 1 (mkTreeNode 1 [2]) (by decide) rfl (by decide)⟩
